import Mathlib

/-!
Verification of the `rand_hash` crate: a deterministic CSPRNG (`HashRng`)
that expands an arbitrary digestable seed into a byte stream by hashing a
u64 block counter together with the seed, one hash output block at a time.

The embedding models:
  * bytes as `Nat` (real bytes are < 256; none of the verified properties
    depends on that bound);
  * the digest function `D` of the generic `digest::Digest` parameter as an
    arbitrary function `List Nat → List Nat` (fixed output size is expressed
    as a hypothesis `∀ x, (D x).length = B`);
  * the `udigest` canonical encoding of the inline struct
    `inline_struct!("dfns.rand_hash" { counter, seed })` as an arbitrary
    function `encode : String → Nat → List Nat → List Nat` applied to the
    domain tag, the u64 counter value, and the seed's canonical encoding
    (`encSeed : S → List Nat`); the `udigest` crate is an external
    dependency, so only the arguments the source passes to it are modelled,
    not its byte layout;
  * the u64 counter as a `Nat` reduced modulo 2^64 at each increment;
  * `fill_bytes`, whose Rust `while` loop does not structurally terminate
    when the digest output is empty, as a fuel-based loop returning
    `Option`; `none` models divergence of the loop.
-/

namespace RandHash

/-- The fixed domain-separation tag the source passes to
`udigest::inline_struct!`. -/
def tag : String := "dfns.rand_hash"

/-- The abstract parameters the generator is generic over: the digest
function `D` (from the `digest::Digest` bound), the `udigest` inline-struct
canonical encoder `encode` (tag, u64 counter value, encoded seed), and the
seed type's own canonical encoding `encSeed` (from the
`udigest::Digestable` bound). -/
structure Model (S : Type) where
  D : List Nat → List Nat
  encode : String → Nat → List Nat → List Nat
  encSeed : S → List Nat

/-- The state of `HashRng<D, S>`: `counter: u64`, the owned `seed: S`, the
current hash output block `buffer`, and the amount of bytes already read
from `buffer` (`offset: usize`). -/
structure HashRng (S : Type) where
  counter : Nat
  seed : S
  buffer : List Nat
  offset : Nat

section Core

variable {S : Type} (M : Model S)

/-- `HashRng::advance_buffer`: reads the stored counter, increments it
(wrapping at 2^64), resets the offset to 0, and recomputes the buffer as
the digest of the `udigest` encoding of the inline struct
`"dfns.rand_hash" { counter, seed }` at the old counter value. -/
def advance_buffer (r : HashRng S) : HashRng S :=
  { counter := (r.counter + 1) % 2 ^ 64
    seed := r.seed
    buffer := M.D (M.encode tag r.counter (M.encSeed r.seed))
    offset := 0 }

/-- `HashRng::from_seed`: builds the state with counter 0, a default
(zero-filled, digest-output-sized) buffer and offset 0, then immediately
calls `advance_buffer`. `B` is the digest output size (the length of
`Default::default()` for `digest::Output<D>`). -/
def from_seed (B : Nat) (seed : S) : HashRng S :=
  advance_buffer M
    { counter := 0
      seed := seed
      buffer := List.replicate B 0
      offset := 0 }

/-- One execution of the `while dest_offset < dest.len()` loop body of
`fill_bytes`, with `remaining = dest.len() - dest_offset`; the returned
list holds the bytes written to `dest` during this call. `fuel` bounds the
number of iterations; `none` models a loop that runs longer (for a digest
with empty output the Rust loop never terminates). -/
def fill_loop (fuel : Nat) (r : HashRng S) (remaining : Nat) :
    Option (List Nat × HashRng S) :=
  match fuel with
  | 0 => if remaining = 0 then some ([], r) else none
  | fuel' + 1 =>
    if remaining = 0 then some ([], r)
    else
      let take := min (r.buffer.length - r.offset) remaining
      let chunk := (r.buffer.drop r.offset).take take
      let r1 : HashRng S := { r with offset := r.offset + take }
      let r2 := if r1.offset = r1.buffer.length then advance_buffer M r1 else r1
      (fill_loop fuel' r2 (remaining - take)).map fun q => (chunk ++ q.1, q.2)

/-- `RngCore::fill_bytes` for `HashRng`, with the destination buffer
represented by its length `n`; returns the `n` bytes written to `dest`
and the updated generator. A fuel of `n + 1` iterations is exact: each
iteration but possibly the first copies at least one byte when the digest
output is nonempty. -/
def fill_bytes (r : HashRng S) (n : Nat) : Option (List Nat × HashRng S) :=
  fill_loop M (n + 1) r n

/-- A possible error of the fallible `rand_core` interface; `HashRng` never
produces it. -/
inductive RngError : Type where
  | error : RngError

/-- `RngCore::try_fill_bytes` for `HashRng`: calls `fill_bytes` and returns
`Ok(())`. -/
def try_fill_bytes (r : HashRng S) (n : Nat) :
    Option (Except RngError (List Nat × HashRng S)) :=
  (fill_bytes M r n).map Except.ok

/-- Little-endian interpretation of a byte string (`uN::from_le_bytes`). -/
def fromLE (bs : List Nat) : Nat :=
  bs.foldr (fun b acc => b + 256 * acc) 0

/-- Modelled from the spec: `HashRng::next_u32` delegates to
`rand_core::impls::next_u32_via_fill`, whose code lies outside this
repository; per the spec it fills a 4-byte temporary buffer via
`fill_bytes` and interprets it in little-endian byte order, with no
additional state. -/
def next_u32 (r : HashRng S) : Option (Nat × HashRng S) :=
  (fill_bytes M r 4).map fun p => (fromLE p.1, p.2)

/-- Modelled from the spec: `HashRng::next_u64` delegates to
`rand_core::impls::next_u64_via_fill`, whose code lies outside this
repository; per the spec it fills an 8-byte temporary buffer via
`fill_bytes` and interprets it in little-endian byte order, with no
additional state. -/
def next_u64 (r : HashRng S) : Option (Nat × HashRng S) :=
  (fill_bytes M r 8).map fun p => (fromLE p.1, p.2)

/-- Successive `fill_bytes` calls with the given destination lengths on one
generator, returning the concatenation of all bytes produced. -/
def fill_seq (r : HashRng S) : List Nat → Option (List Nat × HashRng S)
  | [] => some ([], r)
  | l :: ls =>
    match fill_bytes M r l with
    | some (out, r1) =>
      match fill_seq r1 ls with
      | some (rest, rf) => some (out ++ rest, rf)
      | none => none
    | none => none

/-- The generator states reachable through the public API: `from_seed`
followed by any sequence of (terminating) `fill_bytes` calls. -/
inductive Reachable (B : Nat) : HashRng S → Prop where
  | init (seed : S) : Reachable B (from_seed M B seed)
  | step {r r' : HashRng S} {n : Nat} {out : List Nat} :
      Reachable B r → fill_bytes M r n = some (out, r') → Reachable B r'

/-- The abstract view of a generator state: after `p` bytes of the stream
have been consumed (digest output size `B`), the state holds block
`p / B`, has offset `p % B` into it, and stores counter `p / B + 1`
(mod 2^64). -/
def stateAt (B : Nat) (seed : S) (p : Nat) : HashRng S :=
  { counter := (p / B + 1) % 2 ^ 64
    seed := seed
    buffer := M.D (M.encode tag (p / B % 2 ^ 64) (M.encSeed seed))
    offset := p % B }

/-- Byte `i` of the logical infinite stream for a seed with canonical
encoding `se`: byte `i % B` of block `i / B`. -/
def streamByte (B : Nat) (se : List Nat) (i : Nat) : Nat :=
  (M.D (M.encode tag (i / B % 2 ^ 64) se)).getD (i % B) 0

/-- Bytes `p, p+1, …, p+n-1` of the logical infinite stream. -/
def streamBytes (B : Nat) (se : List Nat) (p n : Nat) : List Nat :=
  (List.range n).map fun j => streamByte M B se (p + j)

end Core

section Lemmas

variable {S : Type} (M : Model S) (B : Nat) (seed : S)

theorem fill_loop_zero_rem (fuel : Nat) (r : HashRng S) :
    fill_loop M fuel r 0 = some ([], r) := by
  cases fuel <;> simp [fill_loop]

theorem div_add_of_lt {p i : Nat} (hB : 0 < B) (h : p % B + i < B) :
    (p + i) / B = p / B := by
  conv_lhs => rw [← Nat.div_add_mod p B, Nat.add_assoc, Nat.mul_add_div hB,
    Nat.div_eq_of_lt h, Nat.add_zero]

theorem mod_add_of_lt {p i : Nat} (h : p % B + i < B) :
    (p + i) % B = p % B + i := by
  conv_lhs => rw [← Nat.div_add_mod p B, Nat.add_assoc, Nat.mul_add_mod,
    Nat.mod_eq_of_lt h]

theorem add_block_boundary {p : Nat} (hB : 0 < B) :
    p + (B - p % B) = B * (p / B + 1) := by
  have hm : p % B < B := Nat.mod_lt _ hB
  have h1 : B * (p / B) + p % B = p := Nat.div_add_mod p B
  rw [Nat.mul_succ]
  generalize B * (p / B) = x at h1 ⊢
  omega

theorem streamBytes_add (se : List Nat) (p a b : Nat) :
    streamBytes M B se p (a + b)
      = streamBytes M B se p a ++ streamBytes M B se (p + a) b := by
  simp [streamBytes, List.range_add, Function.comp_def, Nat.add_assoc]

theorem streamBytes_length (se : List Nat) (p n : Nat) :
    (streamBytes M B se p n).length = n := by
  simp [streamBytes]

theorem take_drop_block (hH : ∀ x, (M.D x).length = B) (hB : 0 < B)
    (se : List Nat) (p t : Nat) (ht : p % B + t ≤ B) :
    ((M.D (M.encode tag (p / B % 2 ^ 64) se)).drop (p % B)).take t
      = streamBytes M B se p t := by
  apply List.ext_getElem
  · simp only [List.length_take, List.length_drop, hH, streamBytes_length]
    omega
  · intro i h1 h2
    have hi : i < t := by
      simpa [streamBytes_length] using h2
    have hlt : p % B + i < B := by omega
    simp only [streamBytes, List.getElem_map, List.getElem_range,
      List.getElem_take, List.getElem_drop, streamByte]
    rw [mod_add_of_lt B hlt, div_add_of_lt B hB hlt,
      List.getD_eq_getElem?_getD, List.getElem?_eq_getElem (by rw [hH]; omega),
      Option.getD_some]

theorem from_seed_eq_stateAt :
    from_seed M B seed = stateAt M B seed 0 := by
  simp [from_seed, advance_buffer, stateAt, Nat.zero_div, Nat.zero_mod]

theorem fill_loop_stateAt (hH : ∀ x, (M.D x).length = B) (hB : 0 < B) :
    ∀ fuel n p, n ≤ fuel →
      fill_loop M fuel (stateAt M B seed p) n
        = some (streamBytes M B (M.encSeed seed) p n, stateAt M B seed (p + n)) := by
  intro fuel
  induction fuel with
  | zero =>
    intro n p hn
    have h0 : n = 0 := Nat.le_zero.mp hn
    subst h0
    simp [fill_loop, streamBytes]
  | succ fuel ih =>
    intro n p hn
    by_cases h0 : n = 0
    · subst h0
      simp [fill_loop, streamBytes]
    · have hm : p % B < B := Nat.mod_lt _ hB
      simp only [fill_loop, if_neg h0, stateAt, hH]
      by_cases hc : B - p % B ≤ n
      · -- the request reaches the end of the current block, so the loop
        -- copies the tail of the block, advances the buffer, and recurses
        have htake : min (B - p % B) n = B - p % B := min_eq_left hc
        have hoff : p % B + (B - p % B) = B := Nat.add_sub_cancel' (Nat.le_of_lt hm)
        have hdiv : (p + (B - p % B)) / B = p / B + 1 := by
          rw [add_block_boundary B hB, Nat.mul_div_cancel_left _ hB]
        have hmod : (p + (B - p % B)) % B = 0 := by
          rw [add_block_boundary B hB, Nat.mul_mod_right]
        have hpn : p + (B - p % B) + (n - (B - p % B)) = p + n := by omega
        have hrec := ih (n - (B - p % B)) (p + (B - p % B)) (by omega)
        rw [hpn] at hrec
        simp only [stateAt, hdiv, hmod] at hrec
        have hchunk := take_drop_block M B hH hB (M.encSeed seed) p (B - p % B)
          (Nat.le_of_eq hoff)
        simp only [htake, hoff, hH, if_true, advance_buffer, Nat.mod_add_mod,
          hrec, Option.map_some', hchunk]
        rw [← streamBytes_add]
        rw [show B - p % B + (n - (B - p % B)) = n by omega]
      · -- the request ends strictly inside the current block
        have hlt2 : n < B - p % B := Nat.lt_of_not_le hc
        have htake : min (B - p % B) n = n := min_eq_right (Nat.le_of_lt hlt2)
        have hlt : p % B + n < B := by omega
        have hchunk := take_drop_block M B hH hB (M.encSeed seed) p n
          (Nat.le_of_lt hlt)
        simp only [htake]
        rw [if_neg (show ¬(p % B + n = B) by omega)]
        rw [Nat.sub_self, fill_loop_zero_rem]
        simp only [Option.map_some', hchunk, List.append_nil,
          div_add_of_lt B hB hlt, mod_add_of_lt B hlt]

theorem fill_bytes_stateAt (hH : ∀ x, (M.D x).length = B) (hB : 0 < B)
    (p n : Nat) :
    fill_bytes M (stateAt M B seed p) n
      = some (streamBytes M B (M.encSeed seed) p n, stateAt M B seed (p + n)) :=
  fill_loop_stateAt M B seed hH hB (n + 1) n p (Nat.le_succ n)

theorem fill_bytes_from_seed (hH : ∀ x, (M.D x).length = B) (hB : 0 < B)
    (n : Nat) :
    fill_bytes M (from_seed M B seed) n
      = some (streamBytes M B (M.encSeed seed) 0 n, stateAt M B seed n) := by
  rw [from_seed_eq_stateAt M B seed, fill_bytes_stateAt M B seed hH hB 0 n,
    Nat.zero_add]

theorem fill_seq_stateAt (hH : ∀ x, (M.D x).length = B) (hB : 0 < B) :
    ∀ (ls : List Nat) (p : Nat),
      fill_seq M (stateAt M B seed p) ls
        = some (streamBytes M B (M.encSeed seed) p ls.sum,
                stateAt M B seed (p + ls.sum)) := by
  intro ls
  induction ls with
  | nil =>
    intro p
    simp [fill_seq, streamBytes]
  | cons l ls ih =>
    intro p
    rw [fill_seq, fill_bytes_stateAt M B seed hH hB p l]
    dsimp only
    rw [ih (p + l)]
    dsimp only
    rw [List.sum_cons, ← streamBytes_add, Nat.add_assoc]

theorem reachable_stateAt (hH : ∀ x, (M.D x).length = B) (hB : 0 < B)
    (r : HashRng S) (hr : Reachable M B r) :
    ∃ p, r = stateAt M B r.seed p := by
  induction hr with
  | init seed0 =>
    exact ⟨0, from_seed_eq_stateAt M B seed0⟩
  | @step r r' n out _ hfill ih =>
    obtain ⟨p, hp⟩ := ih
    rw [hp, fill_bytes_stateAt M B r.seed hH hB p n] at hfill
    injection hfill with h2
    have hr' : r' = stateAt M B r.seed (p + n) := by
      have := congrArg Prod.snd h2
      simpa using this.symm
    refine ⟨p + n, ?_⟩
    rw [hr']
    rfl

theorem fill_loop_isSome (hH : ∀ x, (M.D x).length = B) (hB : 0 < B) :
    ∀ fuel n (r : HashRng S), n ≤ fuel → r.offset < r.buffer.length →
      (fill_loop M fuel r n).isSome := by
  intro fuel
  induction fuel with
  | zero =>
    intro n r hn _
    have h0 : n = 0 := Nat.le_zero.mp hn
    subst h0
    simp [fill_loop]
  | succ fuel ih =>
    intro n r hn hoff
    by_cases h0 : n = 0
    · subst h0
      simp [fill_loop]
    · have htake : 1 ≤ min (r.buffer.length - r.offset) n := by omega
      simp only [fill_loop, if_neg h0, Option.isSome_map']
      by_cases hcond :
          r.offset + min (r.buffer.length - r.offset) n = r.buffer.length
      · rw [if_pos hcond]
        exact ih _ _ (by omega) (by simp [advance_buffer, hH, hB])
      · rw [if_neg hcond]
        have : min (r.buffer.length - r.offset) n ≤ r.buffer.length - r.offset :=
          Nat.min_le_left _ _
        exact ih _ _ (by omega) (by simp only []; omega)

end Lemmas

section Claims

variable {S : Type} (M : Model S) (B : Nat) (seed : S)

/-- Claim C1: chunking invariance — for every seed, every hash function with
positive output size, and every decomposition of a length `L` into positive
parts `l1 + … + lk = L`, successive `fill_bytes` calls with destinations of
lengths `l1, …, lk` on one freshly constructed `HashRng` produce a
concatenation byte-identical to one `fill_bytes` call of length `L` on a
freshly constructed `HashRng` from the same seed and hash function. -/
theorem fill_bytes_chunking (hH : ∀ x, (M.D x).length = B) (hB : 0 < B)
    (ls : List Nat) (_hpos : ∀ l ∈ ls, 0 < l) :
    ∃ out rs r1,
      fill_seq M (from_seed M B seed) ls = some (out, rs)
        ∧ fill_bytes M (from_seed M B seed) ls.sum = some (out, r1) := by
  rw [from_seed_eq_stateAt M B seed]
  exact ⟨_, _, _, fill_seq_stateAt M B seed hH hB ls 0,
    by rw [fill_bytes_stateAt M B seed hH hB 0 ls.sum]⟩

/-- Claim C2: state invariant — every state reachable by `from_seed` and a
sequence of `fill_bytes` calls has `buffer = Hash(encode(counter - 1, seed))`
(with `counter - 1` taken modulo 2^64) and an offset strictly below the
buffer length, so the offset never persists at the exhausted value across
calls. -/
theorem state_invariant (hH : ∀ x, (M.D x).length = B) (hB : 0 < B)
    (r : HashRng S) (hr : Reachable M B r) :
    r.buffer
        = M.D (M.encode tag ((r.counter + (2 ^ 64 - 1)) % 2 ^ 64)
            (M.encSeed r.seed))
      ∧ r.offset < r.buffer.length := by
  obtain ⟨p, hp⟩ := reachable_stateAt M B hH hB r hr
  have h1 : (1:Nat) ≤ 2 ^ 64 := Nat.one_le_two_pow
  constructor
  · rw [hp]
    simp only [stateAt, Nat.mod_add_mod]
    rw [Nat.add_assoc, Nat.add_sub_cancel' h1, Nat.add_mod_right]
  · rw [hp]
    simp only [stateAt, hH]
    exact Nat.mod_lt _ hB

/-- Claim C3: construction postcondition — for every seed, `from_seed` is a
total function whose result has buffer `Hash(encode(0, seed))`, stored
counter 1, and offset 0. -/
theorem from_seed_spec :
    from_seed M B seed
      = { counter := 1
          seed := seed
          buffer := M.D (M.encode tag 0 (M.encSeed seed))
          offset := 0 } := by
  simp [from_seed, advance_buffer,
    Nat.mod_eq_of_lt (show (1:Nat) < 2 ^ 64 by norm_num)]

/-- Claim C4: counter wraparound is not a failure — when the stored u64
counter is `2^64 - 1`, the next block computation wraps the counter to 0,
still hashes `encode(2^64 - 1, seed)`, and byte generation continues: any
subsequent `fill_bytes` call still terminates with a full-length output. -/
theorem counter_wraparound (hH : ∀ x, (M.D x).length = B) (hB : 0 < B)
    (r : HashRng S) (hc : r.counter = 2 ^ 64 - 1) (n : Nat) :
    (advance_buffer M r).counter = 0
      ∧ (advance_buffer M r).buffer
          = M.D (M.encode tag (2 ^ 64 - 1) (M.encSeed r.seed))
      ∧ ∃ out r', fill_bytes M (advance_buffer M r) n = some (out, r')
          ∧ out.length = n := by
  have h1 : (1:Nat) ≤ 2 ^ 64 := Nat.one_le_two_pow
  have hst : advance_buffer M r = stateAt M B r.seed (B * (2 ^ 64 - 1)) := by
    simp only [advance_buffer, stateAt, hc, Nat.mul_div_cancel_left _ hB,
      Nat.mul_mod_right,
      Nat.mod_eq_of_lt (Nat.sub_lt (Nat.lt_of_lt_of_le Nat.one_pos h1) Nat.one_pos)]
  refine ⟨?_, ?_, ?_⟩
  · simp [advance_buffer, hc, Nat.sub_add_cancel h1, Nat.mod_self]
  · simp [advance_buffer, hc]
  · rw [hst, fill_bytes_stateAt M B r.seed hH hB _ n]
    exact ⟨_, _, rfl, streamBytes_length M B _ _ n⟩

/-- Claim C5: zero-length request — `fill_bytes` with a zero-length
destination writes nothing and leaves the whole generator state (counter,
seed, buffer, offset) unchanged; no block is computed or consumed. -/
theorem fill_bytes_zero_len (r : HashRng S) :
    fill_bytes M r 0 = some ([], r) := rfl

/-- Claim C6: termination of fill — for every generator state whose offset
is within bounds and every finite destination length `n`, the `fill_bytes`
loop terminates (the fuel `n + 1` suffices), because the hash output size
is positive, so each iteration with bytes still to write copies at least
one byte (after at most one immediate buffer advance). -/
theorem fill_bytes_terminates (hH : ∀ x, (M.D x).length = B) (hB : 0 < B)
    (r : HashRng S) (hoff : r.offset ≤ r.buffer.length) (n : Nat) :
    (fill_bytes M r n).isSome := by
  rcases Nat.lt_or_ge r.offset r.buffer.length with hlt | hge
  · exact fill_loop_isSome M B hH hB (n + 1) n r (Nat.le_succ n) hlt
  · have heq : r.offset = r.buffer.length := Nat.le_antisymm hoff hge
    by_cases h0 : n = 0
    · subst h0
      simp [fill_bytes, fill_loop]
    · simp only [fill_bytes, fill_loop, if_neg h0, Option.isSome_map']
      rw [heq, Nat.sub_self, Nat.zero_min]
      rw [if_pos (by simp), Nat.sub_zero]
      exact fill_loop_isSome M B hH hB n n _ Nat.le.refl
        (by simp [advance_buffer, hH, hB])

/-- Claim C7: `try_fill_bytes` never errors and is equivalent to
`fill_bytes` — it returns the `Ok` of whatever `fill_bytes` produces
(same bytes, same final state) and never returns the error case. -/
theorem try_fill_bytes_ok (r : HashRng S) (n : Nat) :
    (∀ out r', fill_bytes M r n = some (out, r') →
        try_fill_bytes M r n = some (Except.ok (out, r')))
      ∧ ∀ e : RngError, try_fill_bytes M r n ≠ some (Except.error e) := by
  constructor
  · intro out r' h
    simp [try_fill_bytes, h]
  · intro e h
    rw [try_fill_bytes] at h
    obtain ⟨y, _, hok⟩ := Option.map_eq_some'.mp h
    exact Except.noConfusion hok

/-- Claim C8: fixed-width extraction is derived from fill with no extra
state — `next_u32` returns the little-endian interpretation of exactly the
next 4 bytes `fill_bytes` would produce and leaves the generator in the
same state as that 4-byte `fill_bytes` call; likewise `next_u64` for the
next 8 bytes. -/
theorem next_u32_u64_via_fill (r : HashRng S) :
    (∀ out r', fill_bytes M r 4 = some (out, r') →
        next_u32 M r = some (fromLE out, r'))
      ∧ ∀ out r', fill_bytes M r 8 = some (out, r') →
        next_u64 M r = some (fromLE out, r') := by
  constructor <;> intro out r' h <;> simp [next_u32, next_u64, h]

/-- Claim C9: block-edge boundary — on a freshly constructed generator with
hash output size `B`, filling exactly `B` bytes leaves a generator whose
block has been advanced (stored counter 2, buffer `Hash(encode(1, seed))`),
and the very next byte is the first byte of `Hash(encode(1, seed))`. -/
theorem block_edge (hH : ∀ x, (M.D x).length = B) (hB : 0 < B) :
    ∃ out1 r1 out2 r2,
      fill_bytes M (from_seed M B seed) B = some (out1, r1)
        ∧ fill_bytes M r1 1 = some (out2, r2)
        ∧ r1.counter = 2
        ∧ r1.buffer = M.D (M.encode tag 1 (M.encSeed seed))
        ∧ out2 = [(M.D (M.encode tag 1 (M.encSeed seed))).getD 0 0] := by
  have hd : B / B = 1 := Nat.div_self hB
  have hm0 : B % B = 0 := Nat.mod_self B
  have h1 : (1:Nat) % 2 ^ 64 = 1 := Nat.mod_eq_of_lt (by norm_num)
  have h2 : (2:Nat) % 2 ^ 64 = 2 := Nat.mod_eq_of_lt (by norm_num)
  refine ⟨_, _, _, _, fill_bytes_from_seed M B seed hH hB B,
    fill_bytes_stateAt M B seed hH hB B 1, ?_, ?_, ?_⟩
  · simp [stateAt, hd, h2]
  · simp [stateAt, hd, h1]
  · have hr1 : List.range 1 = [0] := rfl
    simp [streamBytes, streamByte, hr1, hd, hm0]

/-- Claim C10: concrete hash-input layout — every buffer a reachable
generator holds is the digest of the `udigest` inline-struct encoding under
the fixed domain tag `"dfns.rand_hash"` of a u64 block index together with
the seed's canonical encoding; consequently the output stream is a function
of only that tag, the block index, and the seed's canonical encoding: two
seeds with equal canonical encodings yield identical output streams. -/
theorem hash_input_layout (hH : ∀ x, (M.D x).length = B) (hB : 0 < B) :
    (∀ r : HashRng S, Reachable M B r →
        ∃ i, i < 2 ^ 64
          ∧ r.buffer = M.D (M.encode "dfns.rand_hash" i (M.encSeed r.seed)))
      ∧ ∀ (s1 s2 : S) (n : Nat), M.encSeed s1 = M.encSeed s2 →
        (fill_bytes M (from_seed M B s1) n).map Prod.fst
          = (fill_bytes M (from_seed M B s2) n).map Prod.fst := by
  constructor
  · intro r hr
    obtain ⟨p, hp⟩ := reachable_stateAt M B hH hB r hr
    refine ⟨p / B % 2 ^ 64, Nat.mod_lt _ (by norm_num), ?_⟩
    rw [hp]
    simp [stateAt, tag]
  · intro s1 s2 n hse
    rw [fill_bytes_from_seed M B s1 hH hB n, fill_bytes_from_seed M B s2 hH hB n]
    simp [streamBytes, streamByte, hse]

end Claims

section Witnesses

/-- A small concrete instantiation used by the witnesses: a "digest" with
2-byte output (the byte-sum and the length of its input, both reduced mod
256) over a unit seed type, with a transparent inline-struct encoder. -/
def M0 : Model Unit :=
  { D := fun x => [x.sum % 256, x.length % 256]
    encode := fun _ c se => c % 256 :: se
    encSeed := fun _ => [] }

/-- A variant of `M0` over a two-valued seed type whose two seeds share one
canonical encoding; used to witness that the stream depends on the seed
only through its encoding. -/
def M1 : Model Bool :=
  { D := fun x => [x.sum % 256, x.length % 256]
    encode := fun _ c se => c % 256 :: se
    encSeed := fun _ => [] }

/-- Witness for claim C1 at the concrete model `M0`, seed `()`, and the
positive decomposition `1 + 2 + 3` of `L = 6`. -/
theorem fill_bytes_chunking_witness :
    (∀ x, (M0.D x).length = 2) ∧ 0 < 2
      ∧ (∀ l ∈ ([1, 2, 3] : List Nat), 0 < l)
      ∧ ∃ out rs r1,
          fill_seq M0 (from_seed M0 2 ()) [1, 2, 3] = some (out, rs)
            ∧ fill_bytes M0 (from_seed M0 2 ()) ([1, 2, 3] : List Nat).sum
                = some (out, r1) :=
  ⟨fun _ => rfl, by decide, by decide,
    fill_bytes_chunking M0 2 () (fun _ => rfl) (by decide) [1, 2, 3] (by decide)⟩

/-- Witness for claim C2 at the concrete model `M0`: the state reached from
`from_seed` by one 3-byte `fill_bytes` call satisfies the invariant. -/
theorem state_invariant_witness :
    (∀ x, (M0.D x).length = 2) ∧ 0 < 2
      ∧ Reachable M0 2 ⟨2, (), [1, 1], 1⟩
      ∧ ((⟨2, (), [1, 1], 1⟩ : HashRng Unit).buffer
            = M0.D (M0.encode tag
                (((⟨2, (), [1, 1], 1⟩ : HashRng Unit).counter + (2 ^ 64 - 1)) % 2 ^ 64)
                (M0.encSeed (⟨2, (), [1, 1], 1⟩ : HashRng Unit).seed))
          ∧ (⟨2, (), [1, 1], 1⟩ : HashRng Unit).offset
              < (⟨2, (), [1, 1], 1⟩ : HashRng Unit).buffer.length) :=
  have hreach : Reachable M0 2 (⟨2, (), [1, 1], 1⟩ : HashRng Unit) :=
    Reachable.step (Reachable.init ())
      (show fill_bytes M0 (from_seed M0 2 ()) 3
          = some ([0, 1, 1], ⟨2, (), [1, 1], 1⟩) from rfl)
  ⟨fun _ => rfl, by decide, hreach,
    state_invariant M0 2 (fun _ => rfl) (by decide) _ hreach⟩

/-- Witness for claim C4 at the concrete model `M0` and a state whose
counter sits at `2^64 - 1`. -/
theorem counter_wraparound_witness :
    (∀ x, (M0.D x).length = 2) ∧ 0 < 2
      ∧ (⟨2 ^ 64 - 1, (), [], 0⟩ : HashRng Unit).counter = 2 ^ 64 - 1
      ∧ ((advance_buffer M0 ⟨2 ^ 64 - 1, (), [], 0⟩).counter = 0
          ∧ (advance_buffer M0 ⟨2 ^ 64 - 1, (), [], 0⟩).buffer
              = M0.D (M0.encode tag (2 ^ 64 - 1)
                  (M0.encSeed (⟨2 ^ 64 - 1, (), [], 0⟩ : HashRng Unit).seed))
          ∧ ∃ out r',
              fill_bytes M0 (advance_buffer M0 ⟨2 ^ 64 - 1, (), [], 0⟩) 3
                  = some (out, r')
                ∧ out.length = 3) :=
  ⟨fun _ => rfl, by decide, rfl,
    counter_wraparound M0 2 (fun _ => rfl) (by decide) ⟨2 ^ 64 - 1, (), [], 0⟩ rfl 3⟩

/-- Witness for claim C6 at the concrete model `M0` and a freshly
constructed generator, requesting 5 bytes. -/
theorem fill_bytes_terminates_witness :
    (∀ x, (M0.D x).length = 2) ∧ 0 < 2
      ∧ (from_seed M0 2 ()).offset ≤ (from_seed M0 2 ()).buffer.length
      ∧ (fill_bytes M0 (from_seed M0 2 ()) 5).isSome :=
  ⟨fun _ => rfl, by decide, by decide,
    fill_bytes_terminates M0 2 (fun _ => rfl) (by decide) (from_seed M0 2 ())
      (by decide) 5⟩

/-- Witness for claim C7 at the concrete model `M0`: a 3-byte
`try_fill_bytes` call never returns the error case. -/
theorem try_fill_bytes_ok_witness :
    try_fill_bytes M0 (from_seed M0 2 ()) 3 ≠ some (Except.error RngError.error) :=
  (try_fill_bytes_ok M0 (from_seed M0 2 ()) 3).2 RngError.error

/-- Witness for claim C8 at the concrete model `M0`: the next 4 (resp. 8)
stream bytes are `[0, 1, 1, 1]` (resp. `[0, 1, 1, 1, 2, 1, 3, 1]`), and
`next_u32` (resp. `next_u64`) returns their little-endian value and the
same final state as the corresponding `fill_bytes` call. -/
theorem next_u32_u64_via_fill_witness :
    fill_bytes M0 (from_seed M0 2 ()) 4 = some ([0, 1, 1, 1], ⟨3, (), [2, 1], 0⟩)
      ∧ next_u32 M0 (from_seed M0 2 ())
          = some (fromLE [0, 1, 1, 1], ⟨3, (), [2, 1], 0⟩)
      ∧ fill_bytes M0 (from_seed M0 2 ()) 8
          = some ([0, 1, 1, 1, 2, 1, 3, 1], ⟨5, (), [4, 1], 0⟩)
      ∧ next_u64 M0 (from_seed M0 2 ())
          = some (fromLE [0, 1, 1, 1, 2, 1, 3, 1], ⟨5, (), [4, 1], 0⟩) :=
  ⟨rfl, (next_u32_u64_via_fill M0 (from_seed M0 2 ())).1 _ _ rfl,
    rfl, (next_u32_u64_via_fill M0 (from_seed M0 2 ())).2 _ _ rfl⟩

/-- Witness for claim C9 at the concrete model `M0` (output size 2). -/
theorem block_edge_witness :
    (∀ x, (M0.D x).length = 2) ∧ 0 < 2
      ∧ ∃ out1 r1 out2 r2,
          fill_bytes M0 (from_seed M0 2 ()) 2 = some (out1, r1)
            ∧ fill_bytes M0 r1 1 = some (out2, r2)
            ∧ r1.counter = 2
            ∧ r1.buffer = M0.D (M0.encode tag 1 (M0.encSeed ()))
            ∧ out2 = [(M0.D (M0.encode tag 1 (M0.encSeed ()))).getD 0 0] :=
  ⟨fun _ => rfl, by decide, block_edge M0 2 () (fun _ => rfl) (by decide)⟩

/-- Witness for claim C10 at the concrete model `M1`, whose two seeds
`true` and `false` share one canonical encoding. -/
theorem hash_input_layout_witness :
    (∀ x, (M1.D x).length = 2) ∧ 0 < 2
      ∧ ((∀ r : HashRng Bool, Reachable M1 2 r →
            ∃ i, i < 2 ^ 64
              ∧ r.buffer = M1.D (M1.encode "dfns.rand_hash" i (M1.encSeed r.seed)))
          ∧ ∀ (s1 s2 : Bool) (n : Nat), M1.encSeed s1 = M1.encSeed s2 →
            (fill_bytes M1 (from_seed M1 2 s1) n).map Prod.fst
              = (fill_bytes M1 (from_seed M1 2 s2) n).map Prod.fst) :=
  ⟨fun _ => rfl, by decide, hash_input_layout M1 2 (fun _ => rfl) (by decide)⟩

end Witnesses

end RandHash

